import Mathlib

/-!
Verification of the tree-extraction utility (`src/main.cpp`).

The program reads a tree file, parses it with an external multi-format
library, and writes each parsed tree to its own `.tre` file.  We shallowly
embed the functions of `main.cpp`:

* `is_valid_format`    — the linear scan of `MultiFormatReader::getFormatNames()`
  (the catalog itself is an external library capability, modelled as an
  abstract list parameter);
* `display_valid_formats` — the list of lines printed to `cerr`;
* `spit_newick`        — the file writer, over an explicit file-system state
  with an open/write/close handle discipline (`fs_state`), including the
  possibility that `ofstream::open` fails (`canOpen` oracle): a failed
  stream silently ignores writes, exactly as an `ofstream` with the default
  exception mask does;
* `extract_trees`      — name resolution and the write loop, with the
  no-trees exception modelled as `Except.error`;
* `parse_input`        — the three catch clauses, modelled as a function from
  the parse outcome to the `cerr` lines and the control action taken;
* `main_run`           — the `main` function over already-parsed command-line
  options, producing the exit code, `cerr` lines, final file system, and
  whether the input path was ever opened.
-/

/-- The in-memory result of parsing one tree (`tree_info`): a (possibly
empty) name and the Newick string without its trailing semicolon. -/
structure tree_info where
  name : String
  newick : String
deriving DecidableEq, Repr

/-- File-system state threaded through the writer.  `canOpen` is the
environment's answer to `ofstream::open` (permissions, invalid path, …);
it is never modified by the program.  `openFile` is the target of the
currently open output stream, `buffer` its unflushed content. -/
structure fs_state where
  canOpen : String → Bool
  files : String → Option String
  openFile : Option String
  buffer : String

/-- Model of `ofstream::open` with the default (truncating) mode: on
success the file is created or truncated to empty and the stream is
attached; on failure the stream is left failed (no attached file) and the
existing file, if any, is untouched. -/
def fs_open (f : String) (st : fs_state) : fs_state :=
  if st.canOpen f then
    { st with files := fun g => if g = f then some "" else st.files g,
              openFile := some f, buffer := "" }
  else
    { st with openFile := none, buffer := "" }

/-- Model of `out << s`: appends to the stream buffer; on a failed stream
(the default exception mask) the insertion is silently a no-op. -/
def fs_write (s : String) (st : fs_state) : fs_state :=
  match st.openFile with
  | some _ => { st with buffer := st.buffer ++ s }
  | none => st

/-- Model of `out.close()`: flushes the buffer to the attached file and
releases the stream; a no-op on a stream that was never opened. -/
def fs_close (st : fs_state) : fs_state :=
  match st.openFile with
  | some f =>
      { st with
        files := fun g =>
          if g = f then some (((st.files f).getD "") ++ st.buffer) else st.files g,
        openFile := none, buffer := "" }
  | none => st

/-- `spit_newick` (main.cpp:158-163): opens `filename`, writes `contents`
then `";"`, and closes the stream. -/
def spit_newick (contents : String) (filename : String) (st : fs_state) : fs_state :=
  fs_close (fs_write ";" (fs_write contents (fs_open filename st)))

/-- Name resolution inside the loop of `extract_trees` (main.cpp:144-147):
an empty name is replaced by `prefix + "_" + lexical_cast<string>(i)`. -/
def resolve_name (pfx : String) (i : Nat) (name : String) : String :=
  if name.length == 0 then pfx ++ "_" ++ toString i else name

/-- The sequence of `(filename, contents)` pairs passed to `spit_newick`
by the loop of `extract_trees` (main.cpp:142-149), in loop order. -/
def extract_writes (trees : List tree_info) (pfx : String) : List (String × String) :=
  trees.enum.map (fun p => (resolve_name pfx p.1 p.2.name ++ ".tre", p.2.newick))

/-- Performs a sequence of `spit_newick` calls in order. -/
def run_writes (ws : List (String × String)) (st : fs_state) : fs_state :=
  ws.foldl (fun st p => spit_newick p.2 p.1 st) st

/-- Message of `no_trees_exception::what()` (main.cpp:122-126). -/
def no_trees_what : String := "the file was parsed successfully, but no trees were found"

/-- `extract_trees` (main.cpp:135-150) after parsing has produced `trees`:
throws `no_trees` when the vector is empty, otherwise writes every tree.
The thrown exception is modelled as `Except.error` carrying `what()`. -/
def extract_trees (trees : List tree_info) (pfx : String) (st : fs_state) :
    Except String fs_state :=
  if trees.length == 0 then Except.error no_trees_what
  else Except.ok (run_writes (extract_writes trees pfx) st)

/-- `is_valid_format` (main.cpp:99-107): linear scan of the format-name
list for an exact (case-sensitive) string match.  The list returned by
`MultiFormatReader::getFormatNames()` is an external library capability
and is abstracted as the parameter `format_names`. -/
def is_valid_format (format_names : List String) (format : String) : Bool :=
  format_names.any (fun n => n == format)

/-- `display_valid_formats` (main.cpp:112-117): the lines printed to
`cerr`, one per format name, each preceded by a tab. -/
def display_valid_formats (format_names : List String) : List String :=
  format_names.map (fun n => "\t" ++ n)

/-- Outcome of `parser.parse(in)` as seen by the catch clauses of
`parse_input` (main.cpp:171-187). -/
inductive parse_outcome where
  | success
  | nxsError (msg : String)
  | stdError (msg : String)
  | unknownError
deriving DecidableEq, Repr

/-- Control action taken by an error handler: either fall through and
continue the run, or terminate the process with the given status. -/
inductive handler_action where
  | continue_run
  | exit_process (code : Nat)
deriving DecidableEq, Repr

/-- `parse_input` (main.cpp:171-187): the `cerr` lines produced and the
control action taken for each parse outcome.  `NxsException` and
`std::exception` are reported and `exit(1)` is called; the catch-all
prints its fixed message and falls through without terminating. -/
def parse_input (o : parse_outcome) : List String × handler_action :=
  match o with
  | .success => ([], .continue_run)
  | .nxsError m => ([m], .exit_process 1)
  | .stdError m => ([m], .exit_process 1)
  | .unknownError => (["unknown exception occurred while parsing tree"], .continue_run)

/-- Observable result of one program run: process exit status, lines
written to `cerr`, final file-system state, and whether the input path
was ever opened for reading. -/
structure prog_result where
  exitCode : Nat
  errLines : List String
  fs : fs_state
  inputOpened : Bool

/-- Exit status of a process killed by SIGABRT (an uncaught C++ exception
reaches `std::terminate`), as reported by a POSIX shell. -/
def abort_status : Nat := 134

/-- `main` (main.cpp:37-79) over already-parsed command-line options.
`format_names` abstracts the external format catalog; `outcome` is what
`parser.parse` does on this input; `trees` is what `parser.get_trees()`
returns afterwards.  An exception escaping `main` (the `no_trees` throw)
reaches `std::terminate`, whose verbose handler prints `what()` to
`stderr` before aborting. -/
def main_run (format_names : List String) (input format pfxOpt : Option String)
    (help : Bool) (outcome : parse_outcome) (trees : List tree_info)
    (st : fs_state) : prog_result :=
  if help then
    { exitCode := 0, errLines := [], fs := st, inputOpened := false }
  else
    match input with
    | none =>
        { exitCode := 1, errLines := ["required option, --input, missing"],
          fs := st, inputOpened := false }
    | some _ =>
        match format with
        | none =>
            { exitCode := 1, errLines := ["required option, --format, missing"],
              fs := st, inputOpened := false }
        | some fmt =>
            if is_valid_format format_names fmt then
              let pfx := pfxOpt.getD "tree"
              let parsed := parse_input outcome
              match parsed.2 with
              | .exit_process c =>
                  { exitCode := c, errLines := parsed.1, fs := st, inputOpened := true }
              | .continue_run =>
                  match extract_trees trees pfx st with
                  | .error msg =>
                      { exitCode := abort_status, errLines := parsed.1 ++ [msg],
                        fs := st, inputOpened := true }
                  | .ok st' =>
                      { exitCode := 0, errLines := parsed.1, fs := st', inputOpened := true }
            else
              { exitCode := 1,
                errLines := ["invalid input format: ", "", "valid formats:"]
                  ++ display_valid_formats format_names,
                fs := st, inputOpened := false }

/-! ### Helper lemmas about the file-system model -/

theorem string_empty_append (s : String) : "" ++ s = s := rfl

theorem spit_newick_canOpen (c f : String) (st : fs_state) :
    (spit_newick c f st).canOpen = st.canOpen := by
  by_cases h : st.canOpen f <;>
    simp [spit_newick, fs_open, fs_write, fs_close, h]

theorem spit_newick_openFile (c f : String) (st : fs_state) :
    (spit_newick c f st).openFile = none := by
  by_cases h : st.canOpen f <;>
    simp [spit_newick, fs_open, fs_write, fs_close, h]

theorem spit_newick_files (c f : String) (st : fs_state) (g : String) :
    (spit_newick c f st).files g =
      if st.canOpen f then
        (if g = f then some (c ++ ";") else st.files g)
      else st.files g := by
  by_cases h : st.canOpen f
  · by_cases hgf : g = f <;>
      simp [spit_newick, fs_open, fs_write, fs_close, h, hgf, string_empty_append]
  · simp [spit_newick, fs_open, fs_write, fs_close, h]

theorem run_writes_canOpen (ws : List (String × String)) (st : fs_state) :
    (run_writes ws st).canOpen = st.canOpen := by
  induction ws generalizing st with
  | nil => rfl
  | cons p ws ih =>
      show (run_writes ws (spit_newick p.2 p.1 st)).canOpen = st.canOpen
      rw [ih, spit_newick_canOpen]

/-- The last content written to file `g` by a write list, if any: the write
that survives, since each successful `spit_newick` truncates. -/
def lastWrite (g : String) : List (String × String) → Option String
  | [] => none
  | (f, c) :: ws =>
      match lastWrite g ws with
      | some c' => some c'
      | none => if f = g then some c else none

theorem run_writes_cons (p : String × String) (ws : List (String × String))
    (st : fs_state) :
    run_writes (p :: ws) st = run_writes ws (spit_newick p.2 p.1 st) := rfl

theorem run_writes_files (ws : List (String × String)) (st : fs_state) (g : String) :
    (run_writes ws st).files g =
      if st.canOpen g then
        (match lastWrite g ws with
         | some c => some (c ++ ";")
         | none => st.files g)
      else st.files g := by
  induction ws generalizing st with
  | nil => simp [run_writes, lastWrite]
  | cons p ws ih =>
      rw [run_writes_cons, ih, spit_newick_canOpen]
      by_cases hg : st.canOpen g
      · simp only [hg, if_true]
        cases hlw : lastWrite g ws with
        | some c' => simp [lastWrite, hlw]
        | none =>
            simp only [lastWrite, hlw, spit_newick_files]
            by_cases hfg : p.1 = g
            · subst hfg
              simp [hg]
            · have : ¬ g = p.1 := fun h => hfg h.symm
              by_cases hco : st.canOpen p.1 <;> simp [hco, this, hfg]
      · have hg' : st.canOpen g = false := by simpa using hg
        rw [hg']
        simp only [Bool.false_eq_true, if_false]
        rw [spit_newick_files]
        by_cases hfg : g = p.1
        · rw [← hfg, hg']
          simp
        · by_cases hco : st.canOpen p.1 <;> simp [hco, hfg]

theorem extract_writes_getElem? (trees : List tree_info) (pfx : String) (i : Nat) :
    (extract_writes trees pfx)[i]? =
      trees[i]?.map (fun t => (resolve_name pfx i t.name ++ ".tre", t.newick)) := by
  simp [extract_writes, List.getElem?_map, List.getElem?_enum, Option.map_map]
  rfl

theorem extract_writes_length (trees : List tree_info) (pfx : String) :
    (extract_writes trees pfx).length = trees.length := by
  simp [extract_writes]

/-! ### Claim theorems -/

/-- C1: for every sequence of parsed trees and every prefix, the write
issued for the tree at 0-based position `i` targets the file
`{resolved_name}.tre`, where the resolved name is the tree's own name
verbatim when non-empty and `{prefix}_{i}` — with `i` the tree's original
position in the parsed sequence — when the name is empty. -/
theorem extract_trees_output_names (trees : List tree_info) (pfx : String)
    (i : Nat) (t : tree_info) (h : trees[i]? = some t) :
    (extract_writes trees pfx)[i]? =
      some ((if t.name.length == 0 then pfx ++ "_" ++ toString i else t.name) ++ ".tre",
            t.newick) := by
  rw [extract_writes_getElem?, h]
  rfl

/-- Witness for C1 at a concrete batch: the unnamed tree at position 1
gets the file `tree_1.tre`. -/
theorem extract_trees_output_names_witness :
    (extract_writes [⟨"A", "(a,b)"⟩, ⟨"", "(c,d)"⟩] "tree")[1]? =
      some ((if ("" : String).length == 0 then "tree" ++ "_" ++ toString 1 else "")
              ++ ".tre", "(c,d)") :=
  extract_trees_output_names [⟨"A", "(a,b)"⟩, ⟨"", "(c,d)"⟩] "tree" 1 ⟨"", "(c,d)"⟩ rfl

/-- C2: writing a tree whose Newick string is `S` leaves the target file
containing exactly `S ++ ";"` — whatever the file held before is gone
(create-or-truncate), nothing else is appended — every other file is
untouched, and the stream is flushed and closed when the writer returns. -/
theorem spit_newick_round_trip (st : fs_state) (S f : String)
    (h : st.canOpen f = true) :
    (spit_newick S f st).files f = some (S ++ ";") ∧
    (spit_newick S f st).openFile = none ∧
    (∀ g, g ≠ f → (spit_newick S f st).files g = st.files g) := by
  refine ⟨?_, spit_newick_openFile S f st, ?_⟩
  · rw [spit_newick_files, h]
    simp
  · intro g hg
    rw [spit_newick_files, h]
    simp [hg]

/-- Witness for C2 at a concrete state holding old contents everywhere:
the target file is truncated to the new contents, another file keeps its
old contents, and the stream ends closed. -/
theorem spit_newick_round_trip_witness :
    (spit_newick "(a,b)" "t.tre"
      { canOpen := fun _ => true, files := fun _ => some "old",
        openFile := none, buffer := "" }).files "t.tre" = some "(a,b);" ∧
    (spit_newick "(a,b)" "t.tre"
      { canOpen := fun _ => true, files := fun _ => some "old",
        openFile := none, buffer := "" }).openFile = none ∧
    (spit_newick "(a,b)" "t.tre"
      { canOpen := fun _ => true, files := fun _ => some "old",
        openFile := none, buffer := "" }).files "other.tre" = some "old" := by
  have h := spit_newick_round_trip
    { canOpen := fun _ => true, files := fun _ => some "old",
      openFile := none, buffer := "" } "(a,b)" "t.tre" rfl
  exact ⟨h.1, h.2.1, h.2.2 "other.tre" (by decide)⟩

/-- C7: `is_valid_format` returns `true` exactly on the strings that occur
— case-sensitively, with no normalization — in the format-name list
advertised by the library. -/
theorem is_valid_format_iff_mem (format_names : List String) (s : String) :
    is_valid_format format_names s = true ↔ s ∈ format_names := by
  simp [is_valid_format, List.any_eq_true, beq_iff_eq]

/-- C3: when the format is valid and parsing succeeds but yields zero
trees, the run surfaces the fixed no-trees message, exits with a non-zero
status, and leaves the file system unchanged (no output file written). -/
theorem no_trees_failure (format_names : List String) (inp fmt : String)
    (pfxOpt : Option String) (st : fs_state)
    (hfmt : is_valid_format format_names fmt = true) :
    (main_run format_names (some inp) (some fmt) pfxOpt false .success [] st).exitCode ≠ 0 ∧
    (main_run format_names (some inp) (some fmt) pfxOpt false .success [] st).errLines
        = [no_trees_what] ∧
    (main_run format_names (some inp) (some fmt) pfxOpt false .success [] st).fs = st := by
  simp [main_run, hfmt, parse_input, extract_trees, abort_status]

/-- Witness for C3 at a concrete catalog, input path and state. -/
theorem no_trees_failure_witness :
    (main_run ["newick"] (some "in.txt") (some "newick") none false .success []
      { canOpen := fun _ => true, files := fun _ => none,
        openFile := none, buffer := "" }).exitCode ≠ 0 ∧
    (main_run ["newick"] (some "in.txt") (some "newick") none false .success []
      { canOpen := fun _ => true, files := fun _ => none,
        openFile := none, buffer := "" }).errLines = [no_trees_what] ∧
    (main_run ["newick"] (some "in.txt") (some "newick") none false .success []
      { canOpen := fun _ => true, files := fun _ => none,
        openFile := none, buffer := "" }).fs =
      { canOpen := fun _ => true, files := fun _ => none,
        openFile := none, buffer := "" } :=
  no_trees_failure ["newick"] "in.txt" "newick" none
    { canOpen := fun _ => true, files := fun _ => none,
      openFile := none, buffer := "" } (by decide)

/-- C4, evaluated on the code: on an unknown parsing failure the catch-all
handler prints its fixed message but does not terminate the process — the
run falls through, extracts the trees the parser holds, writes their
files, and exits 0, contradicting the claim that the run aborts without
extracting or writing. -/
theorem unknown_parse_error_run_continues :
    (parse_input .unknownError).2 = handler_action.continue_run ∧
    (main_run ["newick"] (some "in.txt") (some "newick") none false .unknownError
      [⟨"A", "(a,b)"⟩]
      { canOpen := fun _ => true, files := fun _ => none,
        openFile := none, buffer := "" }).exitCode = 0 ∧
    (main_run ["newick"] (some "in.txt") (some "newick") none false .unknownError
      [⟨"A", "(a,b)"⟩]
      { canOpen := fun _ => true, files := fun _ => none,
        openFile := none, buffer := "" }).fs.files "A.tre" = some "(a,b);" ∧
    (main_run ["newick"] (some "in.txt") (some "newick") none false .unknownError
      [⟨"A", "(a,b)"⟩]
      { canOpen := fun _ => true, files := fun _ => none,
        openFile := none, buffer := "" }).errLines
        = ["unknown exception occurred while parsing tree"] := by
  refine ⟨rfl, rfl, ?_, rfl⟩
  rfl

/-- C6: an invalid format identifier is rejected before any I/O on the
input path: exit status 1, the error banner followed by the full list of
valid identifiers on the error stream, the input never opened, and the
file system unchanged (zero files written). -/
theorem invalid_format_rejected (format_names : List String) (inp fmt : String)
    (pfxOpt : Option String) (outcome : parse_outcome) (trees : List tree_info)
    (st : fs_state) (h : is_valid_format format_names fmt = false) :
    (main_run format_names (some inp) (some fmt) pfxOpt false outcome trees st).exitCode
        = 1 ∧
    (main_run format_names (some inp) (some fmt) pfxOpt false outcome trees st).inputOpened
        = false ∧
    (main_run format_names (some inp) (some fmt) pfxOpt false outcome trees st).fs = st ∧
    (main_run format_names (some inp) (some fmt) pfxOpt false outcome trees st).errLines
        = ["invalid input format: ", "", "valid formats:"]
            ++ display_valid_formats format_names := by
  simp [main_run, h]

/-- Witness for C6 at a concrete two-format catalog and a bogus format. -/
theorem invalid_format_rejected_witness :
    (main_run ["newick", "nexus"] (some "in.txt") (some "bogus") none false .success
      [⟨"A", "(a,b)"⟩]
      { canOpen := fun _ => true, files := fun _ => none,
        openFile := none, buffer := "" }).exitCode = 1 ∧
    (main_run ["newick", "nexus"] (some "in.txt") (some "bogus") none false .success
      [⟨"A", "(a,b)"⟩]
      { canOpen := fun _ => true, files := fun _ => none,
        openFile := none, buffer := "" }).inputOpened = false ∧
    (main_run ["newick", "nexus"] (some "in.txt") (some "bogus") none false .success
      [⟨"A", "(a,b)"⟩]
      { canOpen := fun _ => true, files := fun _ => none,
        openFile := none, buffer := "" }).fs =
      { canOpen := fun _ => true, files := fun _ => none,
        openFile := none, buffer := "" } ∧
    (main_run ["newick", "nexus"] (some "in.txt") (some "bogus") none false .success
      [⟨"A", "(a,b)"⟩]
      { canOpen := fun _ => true, files := fun _ => none,
        openFile := none, buffer := "" }).errLines
        = ["invalid input format: ", "", "valid formats:"]
            ++ display_valid_formats ["newick", "nexus"] :=
  invalid_format_rejected ["newick", "nexus"] "in.txt" "bogus" none .success
    [⟨"A", "(a,b)"⟩]
    { canOpen := fun _ => true, files := fun _ => none,
      openFile := none, buffer := "" } (by decide)

/-- C5, evaluated on the code: `spit_newick` never inspects the stream
state, so a failed open is silently ignored and the loop continues.  With
the first tree's file unopenable, the run still completes normally
(`Except.ok`), writes nothing for the first tree, and writes the second
tree's file — it does not stop at the failed tree. -/
theorem failed_write_run_continues :
    (extract_trees [⟨"x", "(a,b)"⟩, ⟨"y", "(c,d)"⟩] "tree"
      { canOpen := fun f => !(f == "x.tre"), files := fun _ => none,
        openFile := none, buffer := "" }).map
        (fun s => (s.files "x.tre", s.files "y.tre"))
      = Except.ok (none, some "(c,d);") := by
  rfl

/-! ### Last-write lemmas for duplicate filenames -/

theorem lastWrite_eq_none (g : String) (ws : List (String × String))
    (h : ∀ (k : Nat) (p : String × String), ws[k]? = some p → p.1 ≠ g) :
    lastWrite g ws = none := by
  induction ws with
  | nil => rfl
  | cons q ws ih =>
      have hq : q.1 ≠ g := h 0 q (by simp)
      have htl : lastWrite g ws = none :=
        ih (fun k p hk => h (k + 1) p (by simpa using hk))
      simp only [lastWrite, htl]
      simp [hq]

theorem lastWrite_eq_of_getElem (g : String) (ws : List (String × String))
    (j : Nat) (c : String) (hj : ws[j]? = some (g, c))
    (hlast : ∀ (k : Nat) (p : String × String), j < k → ws[k]? = some p → p.1 ≠ g) :
    lastWrite g ws = some c := by
  induction ws generalizing j with
  | nil => simp at hj
  | cons q ws ih =>
      cases j with
      | zero =>
          have hq : q = (g, c) := by simpa using hj
          have hnone : lastWrite g ws = none := by
            apply lastWrite_eq_none
            intro k p hk
            exact hlast (k + 1) p (Nat.succ_pos k) (by simpa using hk)
          simp [lastWrite, hnone, hq]
      | succ j =>
          have hj' : ws[j]? = some (g, c) := by simpa using hj
          have htl : lastWrite g ws = some c := by
            apply ih j hj'
            intro k p hk hkp
            exact hlast (k + 1) p (Nat.succ_lt_succ hk) (by simpa using hkp)
          simp [lastWrite, htl]

theorem string_append_tre_inj (a b : String) (h : a ++ ".tre" = b ++ ".tre") :
    a = b := by
  have hd : a.data ++ ".tre".data = b.data ++ ".tre".data := by
    have := congrArg String.data h
    simpa [String.data_append] using this
  exact String.ext ((List.append_left_inj _).mp hd)

theorem string_length_eq_zero {s : String} (h : s.length = 0) : s = "" :=
  String.ext (List.length_eq_zero.mp h)

/-- C8: when the trees at positions `i < j` resolve to the same output
name, no de-duplication is performed — the writes for both positions are
issued, against the same file — and, `j` being the last position that
resolves to that name (last write wins), the final contents of the shared
file are tree `j`'s Newick string followed by ";". -/
theorem duplicate_names_last_write_wins
    (trees : List tree_info) (pfx : String) (st st' : fs_state)
    (i j : Nat) (ti tj : tree_info)
    (hi : trees[i]? = some ti) (hj : trees[j]? = some tj) (hij : i < j)
    (hdup : resolve_name pfx i ti.name = resolve_name pfx j tj.name)
    (hlast : ∀ (k : Nat) (tk : tree_info), j < k → trees[k]? = some tk →
        resolve_name pfx k tk.name ≠ resolve_name pfx j tj.name)
    (hopen : st.canOpen (resolve_name pfx j tj.name ++ ".tre") = true)
    (hok : extract_trees trees pfx st = Except.ok st') :
    (extract_writes trees pfx)[i]? =
        some (resolve_name pfx j tj.name ++ ".tre", ti.newick) ∧
    (extract_writes trees pfx)[j]? =
        some (resolve_name pfx j tj.name ++ ".tre", tj.newick) ∧
    st'.files (resolve_name pfx j tj.name ++ ".tre") = some (tj.newick ++ ";") := by
  have hwi : (extract_writes trees pfx)[i]? =
      some (resolve_name pfx i ti.name ++ ".tre", ti.newick) := by
    rw [extract_writes_getElem?, hi]
    rfl
  have hwj : (extract_writes trees pfx)[j]? =
      some (resolve_name pfx j tj.name ++ ".tre", tj.newick) := by
    rw [extract_writes_getElem?, hj]
    rfl
  refine ⟨by rw [hwi, hdup], hwj, ?_⟩
  have hjlen : j < trees.length := by
    by_contra hcon
    rw [List.getElem?_eq_none (Nat.le_of_not_lt hcon)] at hj
    exact Option.noConfusion hj
  have hlen : (trees.length == 0) = false := by
    rw [beq_eq_false_iff_ne]
    omega
  have hst' : st' = run_writes (extract_writes trees pfx) st := by
    simp only [extract_trees, hlen, Bool.false_eq_true, if_false,
      Except.ok.injEq] at hok
    exact hok.symm
  subst hst'
  rw [run_writes_files, hopen]
  have hlw : lastWrite (resolve_name pfx j tj.name ++ ".tre")
      (extract_writes trees pfx) = some tj.newick := by
    apply lastWrite_eq_of_getElem _ _ j _ hwj
    intro k p hk hkp
    rw [extract_writes_getElem?] at hkp
    cases htk : trees[k]? with
    | none =>
        rw [htk] at hkp
        exact Option.noConfusion hkp
    | some tk =>
        rw [htk] at hkp
        have hp : p = (resolve_name pfx k tk.name ++ ".tre", tk.newick) :=
          (Option.some.inj hkp).symm
        rw [hp]
        intro hcontra
        exact hlast k tk hk htk (string_append_tre_inj _ _ hcontra)
  rw [hlw]
  rfl

/-- Witness for C8: two trees both named "A"; both writes target `A.tre`
and the final file holds the second tree's Newick string. -/
theorem duplicate_names_last_write_wins_witness :
    (extract_writes [⟨"A", "(a)"⟩, ⟨"A", "(b)"⟩] "tree")[0]? =
        some (resolve_name "tree" 1 "A" ++ ".tre", "(a)") ∧
    (extract_writes [⟨"A", "(a)"⟩, ⟨"A", "(b)"⟩] "tree")[1]? =
        some (resolve_name "tree" 1 "A" ++ ".tre", "(b)") ∧
    (run_writes (extract_writes [⟨"A", "(a)"⟩, ⟨"A", "(b)"⟩] "tree")
      { canOpen := fun _ => true, files := fun _ => none,
        openFile := none, buffer := "" }).files (resolve_name "tree" 1 "A" ++ ".tre")
        = some ("(b)" ++ ";") :=
  duplicate_names_last_write_wins [⟨"A", "(a)"⟩, ⟨"A", "(b)"⟩] "tree"
    { canOpen := fun _ => true, files := fun _ => none,
      openFile := none, buffer := "" }
    (run_writes (extract_writes [⟨"A", "(a)"⟩, ⟨"A", "(b)"⟩] "tree")
      { canOpen := fun _ => true, files := fun _ => none,
        openFile := none, buffer := "" })
    0 1 ⟨"A", "(a)"⟩ ⟨"A", "(b)"⟩ (by decide) (by decide) (by decide) (by decide)
    (by
      intro k tk hk htk
      rw [List.getElem?_eq_none (by simp; omega)] at htk
      exact Option.noConfusion htk)
    rfl rfl

/-- C9: running the extraction twice in succession on the same parsed
trees with the same prefix produces byte-identical output files — the
second run truncates each file and rewrites the same contents, never
appending. -/
theorem extract_twice_idempotent (trees : List tree_info) (pfx : String)
    (st st1 st2 : fs_state)
    (h1 : extract_trees trees pfx st = Except.ok st1)
    (h2 : extract_trees trees pfx st1 = Except.ok st2) :
    st2.files = st1.files := by
  by_cases hlen : (trees.length == 0) = true
  · simp [extract_trees, hlen] at h1
  · have hlen' : (trees.length == 0) = false := by simpa using hlen
    simp only [extract_trees, hlen', Bool.false_eq_true, if_false,
      Except.ok.injEq] at h1 h2
    have e1 : st1 = run_writes (extract_writes trees pfx) st := h1.symm
    subst e1
    have e2 : st2 = run_writes (extract_writes trees pfx)
        (run_writes (extract_writes trees pfx) st) := h2.symm
    subst e2
    funext g
    rw [run_writes_files (extract_writes trees pfx)
      (run_writes (extract_writes trees pfx) st) g, run_writes_canOpen]
    by_cases hco : st.canOpen g = true
    · rw [hco]
      simp only [if_true]
      cases hlw : lastWrite g (extract_writes trees pfx) with
      | none => rfl
      | some c =>
          rw [run_writes_files, hco]
          simp [hlw]
    · have hco' : st.canOpen g = false := by simpa using hco
      rw [hco']
      simp

/-- Witness for C9: a concrete one-tree batch run twice from an empty
file system yields the same files after the second run as after the
first. -/
theorem extract_twice_idempotent_witness :
    (run_writes (extract_writes [⟨"A", "(a)"⟩] "tree")
      (run_writes (extract_writes [⟨"A", "(a)"⟩] "tree")
        { canOpen := fun _ => true, files := fun _ => none,
          openFile := none, buffer := "" })).files =
    (run_writes (extract_writes [⟨"A", "(a)"⟩] "tree")
      { canOpen := fun _ => true, files := fun _ => none,
        openFile := none, buffer := "" }).files :=
  extract_twice_idempotent [⟨"A", "(a)"⟩] "tree"
    { canOpen := fun _ => true, files := fun _ => none,
      openFile := none, buffer := "" }
    (run_writes (extract_writes [⟨"A", "(a)"⟩] "tree")
      { canOpen := fun _ => true, files := fun _ => none,
        openFile := none, buffer := "" })
    (run_writes (extract_writes [⟨"A", "(a)"⟩] "tree")
      (run_writes (extract_writes [⟨"A", "(a)"⟩] "tree")
        { canOpen := fun _ => true, files := fun _ => none,
          openFile := none, buffer := "" }))
    rfl rfl

/-- C10: the write issued for a tree whose parsed name is non-empty is
independent of the prefix — two runs on the same trees that differ only in
the prefix issue the identical (filename, contents) pair at that tree's
position — and the runs' write sequences can differ at a position only if
the tree there is unnamed. -/
theorem named_tree_writes_prefix_independent (trees : List tree_info)
    (p1 p2 : String) (i : Nat) :
    (∀ t : tree_info, trees[i]? = some t → t.name ≠ "" →
        (extract_writes trees p1)[i]? = (extract_writes trees p2)[i]?) ∧
    ((extract_writes trees p1)[i]? ≠ (extract_writes trees p2)[i]? →
        ∃ t : tree_info, trees[i]? = some t ∧ t.name = "") := by
  have key : ∀ t : tree_info, trees[i]? = some t → t.name ≠ "" →
      (extract_writes trees p1)[i]? = (extract_writes trees p2)[i]? := by
    intro t ht hname
    rw [extract_writes_getElem?, extract_writes_getElem?, ht]
    have h0 : ¬ t.name.length = 0 := fun h0 => hname (string_length_eq_zero h0)
    simp [resolve_name, h0]
  refine ⟨key, ?_⟩
  intro hne
  cases htr : trees[i]? with
  | none =>
      exfalso
      apply hne
      rw [extract_writes_getElem?, extract_writes_getElem?, htr]
      rfl
  | some t =>
      by_cases hname : t.name = ""
      · exact ⟨t, rfl, hname⟩
      · exact absurd (key t htr hname) hne

/-- Witness for C10: a named tree's write is the same under prefixes
"tree" and "other". -/
theorem named_tree_writes_prefix_independent_witness :
    (extract_writes [⟨"A", "(x)"⟩] "tree")[0]? =
      (extract_writes [⟨"A", "(x)"⟩] "other")[0]? :=
  (named_tree_writes_prefix_independent [⟨"A", "(x)"⟩] "tree" "other" 0).1
    ⟨"A", "(x)"⟩ (by decide) (by decide)
